import Mathlib

set_option linter.unusedSectionVars false

/-!
Verification of the positronic-variable convergence engine
(`pkg/positronic/positronic.go`, current append-only variant).

The Go code is shallowly embedded: the `PositronicVariable` struct becomes a
Lean structure, each method becomes a pure state-transforming function, and
the `RunProgram` loop becomes a fueled recursion (the Go loop has the fixed
bound `maxIterations = 100`).  Go `interface{}` timeline values are modelled
by the inductive `TVal` over an arbitrary base type with decidable equality:
`TVal.base` is an ordinary value, `TVal.any` is the superposition built by
`quantum.Any` over a list of collected values.  Go map-as-set deduplication
iterates in unspecified order; it is modelled as first-occurrence
(insertion-order) deduplication, and set-level statements are used wherever
the order is not determined by the source.  The mutex is not modelled: every
method acquires the lock around its whole body, so each method is a single
atomic state transformation.
-/

/-- A timeline value: either a plain (`interface{}`) base value or a
superposition built by `quantum.Any` over a list of previously collected
timeline values. -/
inductive TVal (α : Type) where
  | base : α → TVal α
  | any : List (TVal α) → TVal α

section TValEq

variable {α : Type} [DecidableEq α]

mutual

/-- Boolean equality on timeline values (Go compares `interface{}` values
with `!=` and uses them as map keys). -/
def TVal.beq : TVal α → TVal α → Bool
  | .base a, .base b => decide (a = b)
  | .any xs, .any ys => TVal.beqs xs ys
  | _, _ => false

/-- Elementwise boolean equality on lists of timeline values. -/
def TVal.beqs : List (TVal α) → List (TVal α) → Bool
  | [], [] => true
  | x :: xs, y :: ys => TVal.beq x y && TVal.beqs xs ys
  | _, _ => false

end

mutual

/-- `TVal.beq` decides propositional equality. -/
theorem TVal.beq_iff : ∀ a b : TVal α, TVal.beq a b = true ↔ a = b
  | .base a, .base b => by
      rw [TVal.beq]
      constructor
      · intro h; rw [of_decide_eq_true h]
      · rintro h; cases h; exact decide_eq_true rfl
  | .any xs, .any ys => by
      rw [TVal.beq, TVal.beqs_iff xs ys]
      constructor
      · rintro rfl; rfl
      · rintro h; cases h; rfl
  | .base a, .any l => by
      refine iff_of_false ?_ (by intro h; cases h)
      rw [show TVal.beq (TVal.base a) (TVal.any l) = false from rfl]
      simp
  | .any l, .base b => by
      refine iff_of_false ?_ (by intro h; cases h)
      rw [show TVal.beq (TVal.any l) (TVal.base b) = false from rfl]
      simp

/-- `TVal.beqs` decides propositional equality of lists. -/
theorem TVal.beqs_iff : ∀ xs ys : List (TVal α), TVal.beqs xs ys = true ↔ xs = ys
  | [], [] => by rw [TVal.beqs]; simp
  | x :: xs, y :: ys => by
      rw [TVal.beqs, Bool.and_eq_true, TVal.beq_iff x y, TVal.beqs_iff xs ys]
      constructor
      · rintro ⟨rfl, rfl⟩; rfl
      · rintro h; cases h; exact ⟨rfl, rfl⟩
  | [], y :: ys => by
      refine iff_of_false ?_ (by intro h; cases h)
      rw [show TVal.beqs ([] : List (TVal α)) (y :: ys) = false from rfl]
      simp
  | x :: xs, [] => by
      refine iff_of_false ?_ (by intro h; cases h)
      rw [show TVal.beqs (x :: xs) ([] : List (TVal α)) = false from rfl]
      simp

end

instance : DecidableEq (TVal α) := fun a b => decidable_of_iff _ (TVal.beq_iff a b)

end TValEq

/-- An argument passed to `Output`: in the repository the arguments are
either plain values or the positronic variable itself (a single engine
pointer, compared by identity). -/
inductive OutArg (α : Type) where
  | ofVal : TVal α → OutArg α
  | ofPV : OutArg α
deriving DecidableEq

/-- `OutputEntry` from the source: a format string paired with the argument
list passed to `Output`. -/
structure OutputEntry (α : Type) where
  format : String
  args : List (OutArg α)
deriving DecidableEq

/-- The `PositronicVariable` struct (the mutex field is not modelled; every
method is an atomic state transformation). -/
structure PV (α : Type) where
  timeline : List (List (TVal α))
  convergence : Bool
  outputLogs : List (List (OutputEntry α))
  iteration : Nat
deriving DecidableEq

variable {α : Type} [DecidableEq α]

/-- `NewPositronicVariable`: timeline `[[initialValue]]`, zero values for the
remaining fields. -/
def NewPositronicVariable (initialValue : TVal α) : PV α :=
  { timeline := [[initialValue]], convergence := false, outputLogs := [], iteration := 0 }

/-- Models the Go method `Reinitialize` (the name is shortened here):
timeline becomes `[[value]]`, the convergence flag is cleared and the output
logs are discarded; the `iteration` field is left unchanged. -/
def PV.Reinit (pv : PV α) (value : TVal α) : PV α :=
  { pv with timeline := [[value]], convergence := false, outputLogs := [] }

/-- Helper for `Output`: Go's
`outputLogs[len(outputLogs)-1] = append(outputLogs[len(outputLogs)-1], e)`. -/
def appendToLast (logs : List (List (OutputEntry α))) (e : OutputEntry α) :
    List (List (OutputEntry α)) :=
  logs.dropLast ++ [(logs.getLast?.getD []) ++ [e]]

/-- `Output`: records nothing when `iteration == 0`; otherwise ensures the
log list is non-empty and appends the entry to the last bucket. -/
def PV.Output (pv : PV α) (format : String) (args : List (OutArg α)) : PV α :=
  if pv.iteration = 0 then pv
  else
    let logs := if pv.outputLogs.isEmpty then [([] : List (OutputEntry α))] else pv.outputLogs
    { pv with outputLogs := appendToLast logs ⟨format, args⟩ }

/-- `Assign`: always appends `[value]` to the timeline. -/
def PV.Assign (pv : PV α) (value : TVal α) : PV α :=
  { pv with timeline := pv.timeline ++ [[value]] }

/-- `CurrentState`: `nil` (modelled as `none`) on an empty timeline or an
empty last row, otherwise the first element of the last row. -/
def PV.CurrentState (pv : PV α) : Option (TVal α) :=
  match pv.timeline.getLast? with
  | none => none
  | some currentTimeline => currentTimeline.head?

/-- Convenience accessor used throughout: the value stored at timeline
position `j` (Go reads `timeline[j][0]`; `none` models the out-of-range or
empty-row cases, on which the Go expression would panic — every code path
in the source only ever appends singleton rows, so in-range positions are
always `some`). -/
def cellVal (t : List (List (TVal α))) (j : Nat) : Option (TVal α) :=
  (t.get? j).bind List.head?

/-- The boolean inner-loop test of `checkConvergence` for a candidate cycle
length `L`: every offset `i` in `[0, L)` must satisfy
`timeline[n-1-i][0] == timeline[n-1-i-L][0]`. -/
def tailMatchB (t : List (List (TVal α))) (L : Nat) : Bool :=
  (List.range L).all fun i =>
    decide (cellVal t (t.length - 1 - i) = cellVal t (t.length - 1 - i - L))

/-- The same tail-match condition as a proposition. -/
def TailMatch (t : List (List (TVal α))) (L : Nat) : Prop :=
  ∀ i, i < L → cellVal t (t.length - 1 - i) = cellVal t (t.length - 1 - i - L)

/-- The `for cycleLen := 1; ...` loop of `checkConvergence`, searching
candidate lengths upward from `L`.  The loop guard is
`cycleLen <= maxCycleLength && cycleLen*2 <= n` with `maxCycleLength = 10`;
`fuel = 11` at `L = 1` is enough for the guard itself to stop the loop, so
the fuel only renders the recursion structural. -/
def searchFrom (t : List (List (TVal α))) : Nat → Nat → Bool × Nat
  | 0, _ => (false, 0)
  | fuel + 1, L =>
    if L ≤ 10 ∧ 2 * L ≤ t.length then
      if tailMatchB t L then (true, L) else searchFrom t fuel (L + 1)
    else (false, 0)

/-- `checkConvergence`: returns `(true, L)` for the smallest matching cycle
length, or `(false, 0)`. -/
def checkConvergence (t : List (List (TVal α))) : Bool × Nat :=
  searchFrom t 11 1

/-- The state-collection loop of `createSuperpositions`: walk the timeline
in order, skip position 0 (the seed) and empty rows, and insert each first
element into the map-as-set (modelled as insertion-order deduplication). -/
def collectStates (timeline : List (List (TVal α))) : List (TVal α) :=
  timeline.enum.foldl
    (fun stateSet p =>
      match p.2.head? with
      | none => stateSet
      | some v =>
        if p.1 = 0 then stateSet
        else if v ∈ stateSet then stateSet else stateSet ++ [v])
    []

/-- `createSuperpositions`: build `quantum.Any` over the collected unique
states and append it as a new trailing timeline entry. -/
def createSuperpositions (pv : PV α) : PV α :=
  { pv with timeline := pv.timeline ++ [[TVal.any (collectStates pv.timeline)]] }

/-- Insertion-order deduplication, the model of Go's map-as-set loops. -/
def dedupKeep {β : Type} [DecidableEq β] (l : List β) : List β :=
  l.foldl (fun acc x => if x ∈ acc then acc else acc ++ [x]) []

/-- The accumulation loop of `processOutputs`: for each entry append its
args to `outputMap[entry.format]`.  The Go map is modelled as the list of
keys in insertion order together with the contents function. -/
def buildOutputMap (entries : List (OutputEntry α)) :
    List String × (String → List (OutArg α)) :=
  entries.foldl
    (fun acc e =>
      (if e.format ∈ acc.1 then acc.1 else acc.1 ++ [e.format],
       fun k => if k = e.format then acc.2 k ++ e.args else acc.2 k))
    ([], fun _ => [])

/-- The entries visited by the collection loop of `processOutputs`
(`for i := n - cycleLen; i < n; i++` over the buckets, in order). -/
def lastCycleEntries (pv : PV α) (cycleLen : Nat) : List (OutputEntry α) :=
  (pv.outputLogs.drop (pv.outputLogs.length - cycleLen)).flatten

/-- `processOutputs`: using the output-log buckets of the last `cycleLen`
iterations, group args by format key, deduplicate them per key, and emit one
`(format, deduplicated args)` pair per key — the second component is the
set handed to `quantum.Any` before printing.  When
`len(outputLogs) < cycleLen` the method returns without printing. -/
def processOutputs (pv : PV α) (cycleLen : Nat) : List (String × List (OutArg α)) :=
  if pv.outputLogs.length < cycleLen then []
  else
    (buildOutputMap (lastCycleEntries pv cycleLen)).1.map
      fun k => (k, dedupKeep ((buildOutputMap (lastCycleEntries pv cycleLen)).2 k))

/-- The iteration loop of `RunProgram`: set the iteration counter, open a
fresh output bucket, run the callback, and after a backward (negative
`entropy`) pass run the cycle detector; on detection mark convergence,
collapse the timeline and stop, returning the detected cycle length
(`0` when the iteration budget runs out). -/
def runLoop (program : PV α → PV α) : Nat → Nat → Int → PV α → PV α × Nat
  | 0, _, _, pv => (pv, 0)
  | fuel + 1, iterations, entropy, pv =>
    let pv1 : PV α := { pv with iteration := iterations, outputLogs := pv.outputLogs ++ [[]] }
    let pv2 := program pv1
    if entropy < 0 then
      if (checkConvergence pv2.timeline).1 then
        (createSuperpositions { pv2 with convergence := true },
         (checkConvergence pv2.timeline).2)
      else runLoop program fuel (iterations + 1) (-entropy) pv2
    else runLoop program fuel (iterations + 1) (-entropy) pv2

/-- `RunProgram`: reinitialize from `timeline[0][0]`, run up to
`maxIterations = 100` iterations starting with forward time (`entropy = 1`),
then process the accumulated outputs with the detected cycle length.  The
result carries the final engine state, the detected cycle length and the
list of emitted `(format, deduplicated args)` outputs; `none` models the
panic on reading `timeline[0][0]` from an empty timeline. -/
def RunProgram (program : PV α → PV α) (pv : PV α) :
    Option (PV α × Nat × List (String × List (OutArg α))) :=
  match cellVal pv.timeline 0 with
  | none => none
  | some seed =>
    let pv1 := PV.Reinit pv seed
    let res := runLoop program 100 0 1 pv1
    some (res.1, res.2, processOutputs res.1 res.2)

/-- The step callback of `cmd/positronic/main.go`: output the variable
itself, compute `(current.(int) + 1) % 3` (Go `%` is truncated division
remainder, `Int.tmod`), output the computed value, and assign it.  The
fallthrough branch models states on which the Go type assertion `.(int)`
would panic; it is never reached in the modelled run. -/
def mainProgram (pv : PV Int) : PV Int :=
  let pva := pv.Output "The antival is %v\n" [OutArg.ofPV]
  match pva.CurrentState with
  | some (TVal.base x) =>
    let val := (x + 1).tmod 3
    let pvb := pva.Output "The value is %v\n" [OutArg.ofVal (TVal.base val)]
    pvb.Assign (TVal.base val)
  | _ => pva

/-- The constant step callback: always assigns the value 0 (which is also
used as the seed in the counterexample below). -/
def constProgram : PV Int → PV Int := fun q => q.Assign (TVal.base 0)

/-- The timeline produced by an assign-only callback: the seed row followed
by the rows `[vfun 1], [vfun 2], …, [vfun k]` (the callback invoked with a
timeline of length `j` assigns `vfun j`, which lands at position `j`). -/
def Tl (s : α) (vfun : Nat → α) (k : Nat) : List (List (TVal α)) :=
  [TVal.base s] :: (List.range k).map (fun j => [TVal.base (vfun (j + 1))])

/-- The assigned-value sequence `0,1,0, 0,1,0, …` (true period 3): the
`j`-th assigned value is 1 when `j % 3 = 2` and 0 otherwise. -/
def vseq (j : Nat) : Int := if j % 3 = 2 then 1 else 0

/-- The assign-only callback driven by `vseq` (reads the timeline length,
which counts its own invocations, exactly as a Go closure counter would). -/
def periodThreeProgram (q : PV Int) : PV Int :=
  q.Assign (TVal.base (vseq q.timeline.length))

/-! ### Frame lemmas about the individual methods (shared helpers) -/

/-- `Output` never touches the timeline, the convergence flag or the
iteration counter. -/
theorem output_frame (pv : PV α) (f : String) (a : List (OutArg α)) :
    (pv.Output f a).timeline = pv.timeline
    ∧ (pv.Output f a).convergence = pv.convergence
    ∧ (pv.Output f a).iteration = pv.iteration := by
  unfold PV.Output
  split <;> simp

/-- `Assign` only appends to the timeline. -/
theorem assign_frame (pv : PV α) (v : TVal α) :
    (pv.Assign v).timeline = pv.timeline ++ [[v]]
    ∧ (pv.Assign v).convergence = pv.convergence
    ∧ (pv.Assign v).outputLogs = pv.outputLogs
    ∧ (pv.Assign v).iteration = pv.iteration := by
  unfold PV.Assign
  simp

/-! ### C7: Assign appends one entry; CurrentState then returns it -/

/-- C7: for every engine state and every value `v`, `Assign v` appends
exactly one new recorded state `[v]` at the end of the timeline —
unconditionally, with no arrow-of-time parameter in its signature — leaves
every previously recorded entry (and every other field) unchanged, and
immediately afterwards `CurrentState` returns `v`. -/
theorem assign_appends_and_current_state (pv : PV α) (v : TVal α) :
    (pv.Assign v).timeline = pv.timeline ++ [[v]]
    ∧ (pv.Assign v).timeline.length = pv.timeline.length + 1
    ∧ (∀ j, j < pv.timeline.length → (pv.Assign v).timeline.get? j = pv.timeline.get? j)
    ∧ (pv.Assign v).CurrentState = some v
    ∧ (pv.Assign v).convergence = pv.convergence
    ∧ (pv.Assign v).outputLogs = pv.outputLogs
    ∧ (pv.Assign v).iteration = pv.iteration := by
  refine ⟨rfl, by simp [PV.Assign], ?_, ?_, rfl, rfl, rfl⟩
  · intro j hj
    simp [PV.Assign, List.getElem?_append_left hj]
  · simp [PV.Assign, PV.CurrentState, List.getLast?_concat]

/-! ### C9: CurrentState returns a sentinel instead of faulting -/

/-- C9: `CurrentState` is total; it returns the absent sentinel `none` on an
empty timeline and on an empty most-recent entry, and under the
post-construction invariant of a non-empty timeline the empty-timeline
branch is unreachable — the result is then determined by the last row, and
a non-empty last row always yields a present value. -/
theorem current_state_sentinel (pv : PV α) :
    (pv.timeline = [] → pv.CurrentState = none)
    ∧ (∀ pre, pv.timeline = pre ++ [([] : List (TVal α))] → pv.CurrentState = none)
    ∧ (pv.timeline ≠ [] →
        ∃ row, pv.timeline.getLast? = some row ∧ pv.CurrentState = row.head?)
    ∧ (∀ pre v rest, pv.timeline = pre ++ [v :: rest] → pv.CurrentState = some v) := by
  refine ⟨?_, ?_, ?_, ?_⟩
  · intro h; simp [PV.CurrentState, h]
  · intro pre h; simp [PV.CurrentState, h, List.getLast?_concat]
  · intro h
    rcases hl : pv.timeline.getLast? with _ | row
    · exact absurd (List.getLast?_eq_none_iff.mp hl) h
    · exact ⟨row, rfl, by simp [PV.CurrentState, hl]⟩
  · intro pre v rest h
    simp [PV.CurrentState, h, List.getLast?_concat]

/-! ### C8: output recording is gated on the iteration counter -/

/-- C8: a call to `Output` while the iteration counter is 0 (the seeding
pass) records nothing at all, and a call at a later iteration appends one
entry to the current (last) output-log bucket; when no bucket exists yet a
fresh one is created to receive the entry. -/
theorem output_iteration_gating (pv : PV α) (f : String) (a : List (OutArg α)) :
    (pv.iteration = 0 → pv.Output f a = pv)
    ∧ (pv.iteration ≠ 0 → pv.outputLogs = [] →
        (pv.Output f a).outputLogs = [[⟨f, a⟩]])
    ∧ (∀ buckets last, pv.iteration ≠ 0 → pv.outputLogs = buckets ++ [last] →
        (pv.Output f a).outputLogs = buckets ++ [last ++ [⟨f, a⟩]]) := by
  refine ⟨?_, ?_, ?_⟩
  · intro h; simp [PV.Output, h]
  · intro h h0; simp [PV.Output, h, h0, appendToLast]
  · intro buckets last h hl
    have hne : pv.outputLogs.isEmpty = false := by
      rw [hl]; simp
    simp [PV.Output, h, hne, appendToLast, hl, List.dropLast_concat, List.getLast?_concat]

/-- Witness for C8: at iteration 0 the call is dropped; at iteration 1 it
lands in the current bucket. -/
theorem output_iteration_gating_witness :
    (PV.Output ⟨[[TVal.base (0 : Int)]], false, [], 0⟩ "x" []
      = (⟨[[TVal.base 0]], false, [], 0⟩ : PV Int))
    ∧ (PV.Output (⟨[[TVal.base 0]], false, [[]], 1⟩ : PV Int) "x" []).outputLogs
      = [[⟨"x", []⟩]] := by
  constructor
  · exact (output_iteration_gating ⟨[[TVal.base (0 : Int)]], false, [], 0⟩ "x" []).1 rfl
  · exact (output_iteration_gating (⟨[[TVal.base 0]], false, [[]], 1⟩ : PV Int) "x" []).2.2
      [] [] (by decide) rfl

/-- Witness for C9: the sentinel on an empty timeline, and the normal read
on a singleton timeline. -/
theorem current_state_sentinel_witness :
    (⟨[], false, [], 0⟩ : PV Int).CurrentState = none
    ∧ (⟨[[TVal.base 3]], false, [], 0⟩ : PV Int).CurrentState = some (TVal.base 3) := by
  constructor
  · exact (current_state_sentinel _).1 rfl
  · exact (current_state_sentinel _).2.2.2 [] (TVal.base 3) [] rfl

/-! ### C10: Reinitialize resets everything except the iteration counter -/

/-- C10: the reset method restores a single-seed timeline, clears the
convergence flag and discards the output logs, but leaves the internal
iteration counter unchanged; consequently, when the counter is positive
(the last run advanced past iteration 0), an `Output` call made right after
the reset is recorded — into a freshly created bucket — rather than
suppressed. -/
theorem reinit_resets_but_keeps_iteration (pv : PV α) (v : TVal α)
    (f : String) (a : List (OutArg α)) :
    (pv.Reinit v).timeline = [[v]]
    ∧ (pv.Reinit v).convergence = false
    ∧ (pv.Reinit v).outputLogs = []
    ∧ (pv.Reinit v).iteration = pv.iteration
    ∧ (1 ≤ pv.iteration → ((pv.Reinit v).Output f a).outputLogs = [[⟨f, a⟩]]) := by
  refine ⟨rfl, rfl, rfl, rfl, ?_⟩
  intro h
  have : pv.iteration ≠ 0 := by omega
  simp [PV.Reinit, PV.Output, this, appendToLast]

/-- Witness for C10: an engine whose previous run stopped at iteration 4
keeps that counter across the reset, and the next `Output` call is
recorded. -/
theorem reinit_resets_but_keeps_iteration_witness :
    ((⟨[[TVal.base (7 : Int)], [TVal.base 8]], true, [[⟨"y", []⟩]], 4⟩ : PV Int).Reinit
        (TVal.base 7)).iteration = 4
    ∧ (((⟨[[TVal.base (7 : Int)], [TVal.base 8]], true, [[⟨"y", []⟩]], 4⟩ : PV Int).Reinit
        (TVal.base 7)).Output "z" []).outputLogs = [[⟨"z", []⟩]] := by
  refine ⟨?_, ?_⟩
  · exact (reinit_resets_but_keeps_iteration
      (⟨[[TVal.base (7 : Int)], [TVal.base 8]], true, [[⟨"y", []⟩]], 4⟩ : PV Int)
      (TVal.base 7) "z" []).2.2.2.1
  · exact (reinit_resets_but_keeps_iteration
      (⟨[[TVal.base (7 : Int)], [TVal.base 8]], true, [[⟨"y", []⟩]], 4⟩ : PV Int)
      (TVal.base 7) "z" []).2.2.2.2 (by decide)

/-! ### C2: contract of the cycle detector -/

/-- The boolean inner-loop test agrees with the propositional tail-match
condition. -/
theorem tailMatchB_iff (t : List (List (TVal α))) (L : Nat) :
    tailMatchB t L = true ↔ TailMatch t L := by
  simp [tailMatchB, TailMatch, List.all_eq_true, List.mem_range]

/-- When the search loop reports `(true, L)`, `L` is in the searched range,
matches, and is the first matching candidate at or above the start. -/
theorem searchFrom_true_spec (t : List (List (TVal α))) :
    ∀ fuel L0 L, searchFrom t fuel L0 = (true, L) →
      L0 ≤ L ∧ L ≤ 10 ∧ 2 * L ≤ t.length ∧ tailMatchB t L = true
      ∧ ∀ L', L0 ≤ L' → L' < L → tailMatchB t L' = false := by
  intro fuel
  induction fuel with
  | zero =>
    intro L0 L h
    simp [searchFrom] at h
  | succ n ih =>
    intro L0 L h
    rw [searchFrom] at h
    by_cases hg : L0 ≤ 10 ∧ 2 * L0 ≤ t.length
    · rw [if_pos hg] at h
      by_cases hm : tailMatchB t L0 = true
      · rw [if_pos hm] at h
        cases h
        exact ⟨le_refl _, hg.1, hg.2, hm, fun L' h1 h2 => absurd h1 (by omega)⟩
      · rw [if_neg hm] at h
        obtain ⟨h1, h2, h3, h4, h5⟩ := ih (L0 + 1) L h
        refine ⟨by omega, h2, h3, h4, fun L' hL0 hL => ?_⟩
        rcases Nat.eq_or_lt_of_le hL0 with heq | hlt
        · cases heq
          simpa using hm
        · exact h5 L' (by omega) hL
    · rw [if_neg hg] at h
      cases h

/-- When the search loop reports not-found, the reported length is 0 and no
candidate in the whole remaining searchable range matches (the bound
`11 ≤ L0 + fuel` makes the loop guard, not the fuel, stop the scan). -/
theorem searchFrom_false_spec (t : List (List (TVal α))) :
    ∀ fuel L0 c, 11 ≤ L0 + fuel → searchFrom t fuel L0 = (false, c) →
      c = 0 ∧ ∀ L', L0 ≤ L' → L' ≤ 10 → 2 * L' ≤ t.length → tailMatchB t L' = false := by
  intro fuel
  induction fuel with
  | zero =>
    intro L0 c hb h
    rw [searchFrom] at h
    cases h
    exact ⟨rfl, fun L' h1 h2 _ => absurd h2 (by omega)⟩
  | succ n ih =>
    intro L0 c hb h
    rw [searchFrom] at h
    by_cases hg : L0 ≤ 10 ∧ 2 * L0 ≤ t.length
    · rw [if_pos hg] at h
      by_cases hm : tailMatchB t L0 = true
      · rw [if_pos hm] at h
        cases h
      · rw [if_neg hm] at h
        obtain ⟨hc, hall⟩ := ih (L0 + 1) c (by omega) h
        refine ⟨hc, fun L' h1 h2 h3 => ?_⟩
        rcases Nat.eq_or_lt_of_le h1 with heq | hlt
        · cases heq
          simpa using hm
        · exact hall L' (by omega) h2 h3
    · rw [if_neg hg] at h
      cases h
      exact ⟨rfl, fun L' h1 h2 h3 => absurd trivial (fun _ => hg ⟨by omega, by omega⟩)⟩

/-- C2: contract of `checkConvergence` over an arbitrary timeline of length
`N`: candidate cycle lengths `L = 1 .. min(10, N/2)` are searched in
increasing order (the guard is `L ≤ 10 ∧ 2·L ≤ N`); a match for `L` holds
exactly when every offset `i < L` satisfies
`timeline[N-1-i][0] = timeline[N-1-i-L][0]`; the result is `(true, L)` for
the smallest matching `L`, and `(false, 0)` exactly when no candidate in
that range matches. -/
theorem check_convergence_contract (t : List (List (TVal α))) :
    (∀ L, checkConvergence t = (true, L) →
      1 ≤ L ∧ L ≤ 10 ∧ 2 * L ≤ t.length ∧ TailMatch t L
      ∧ ∀ L', 1 ≤ L' → L' < L → ¬ TailMatch t L')
    ∧ (checkConvergence t = (false, 0) ↔
      ∀ L', 1 ≤ L' → L' ≤ 10 → 2 * L' ≤ t.length → ¬ TailMatch t L') := by
  constructor
  · intro L h
    obtain ⟨h1, h2, h3, h4, h5⟩ := searchFrom_true_spec t 11 1 L h
    refine ⟨h1, h2, h3, (tailMatchB_iff t L).mp h4, fun L' hL1 hLlt hTM => ?_⟩
    have := h5 L' hL1 hLlt
    rw [(tailMatchB_iff t L').mpr hTM] at this
    cases this
  · constructor
    · intro h L' hL1 hL10 hLn hTM
      obtain ⟨-, hall⟩ := searchFrom_false_spec t 11 1 0 (by omega) h
      have := hall L' hL1 hL10 hLn
      rw [(tailMatchB_iff t L').mpr hTM] at this
      cases this
    · intro hall
      rcases hr : checkConvergence t with ⟨b, c⟩
      cases b
      · obtain ⟨hc, -⟩ := searchFrom_false_spec t 11 1 c (by omega) hr
        rw [hc]
      · obtain ⟨h1, h2, h3, h4, -⟩ := searchFrom_true_spec t 11 1 c hr
        exact absurd ((tailMatchB_iff t c).mp h4) (hall c h1 h2 h3)

/-- Witness for C2: on the two-entry timeline `[[7],[7]]` the detector
returns `(true, 1)` and the contract yields the tail-match at length 1. -/
theorem check_convergence_contract_witness :
    TailMatch [[TVal.base (7 : Int)], [TVal.base 7]] 1
    ∧ checkConvergence [[TVal.base (7 : Int)], [TVal.base 7]] = (true, 1) := by
  refine ⟨?_, by decide⟩
  exact ((check_convergence_contract
    [[TVal.base (7 : Int)], [TVal.base 7]]).1 1 (by decide)).2.2.2.1

/-! ### C4: the collapsed state set -/

/-- Membership in the state-collection fold: a value is collected exactly
when some enumerated row with positive index has it as first element. -/
theorem collectStates_fold_mem (v : TVal α) :
    ∀ (l : List (Nat × List (TVal α))) (acc : List (TVal α)),
      v ∈ l.foldl
        (fun stateSet p =>
          match p.2.head? with
          | none => stateSet
          | some w =>
            if p.1 = 0 then stateSet
            else if w ∈ stateSet then stateSet else stateSet ++ [w])
        acc
      ↔ v ∈ acc ∨ ∃ p ∈ l, p.1 ≠ 0 ∧ p.2.head? = some v := by
  intro l
  induction l with
  | nil => simp
  | cons p rest ih =>
    intro acc
    rw [List.foldl_cons, ih]
    have hstep :
        (v ∈ (match p.2.head? with
          | none => acc
          | some w =>
            if p.1 = 0 then acc
            else if w ∈ acc then acc else acc ++ [w]))
        ↔ v ∈ acc ∨ (p.1 ≠ 0 ∧ p.2.head? = some v) := by
      rcases hh : p.2.head? with _ | w
      · simp [hh]
      · by_cases h0 : p.1 = 0
        · simp [h0]
        · by_cases hv : w ∈ acc
          · simp only [if_neg h0, if_pos hv]
            constructor
            · exact fun h => Or.inl h
            · rintro (h | ⟨-, hw⟩)
              · exact h
              · cases hw; exact hv
          · simp only [if_neg h0, if_neg hv, List.mem_append, List.mem_singleton]
            constructor
            · rintro (h | rfl)
              · exact Or.inl h
              · exact Or.inr ⟨h0, rfl⟩
            · rintro (h | ⟨-, hw⟩)
              · exact Or.inl h
              · cases hw; exact Or.inr rfl
    rw [hstep]
    simp only [List.mem_cons]
    constructor
    · rintro ((h | h) | ⟨q, hq, h⟩)
      · exact Or.inl h
      · exact Or.inr ⟨p, Or.inl rfl, h⟩
      · exact Or.inr ⟨q, Or.inr hq, h⟩
    · rintro (h | ⟨q, (rfl | hq), h⟩)
      · exact Or.inl (Or.inl h)
      · exact Or.inl (Or.inr h)
      · exact Or.inr ⟨q, hq, h⟩

/-- The state-collection fold never records duplicates. -/
theorem collectStates_fold_nodup :
    ∀ (l : List (Nat × List (TVal α))) (acc : List (TVal α)), acc.Nodup →
      (l.foldl
        (fun stateSet p =>
          match p.2.head? with
          | none => stateSet
          | some w =>
            if p.1 = 0 then stateSet
            else if w ∈ stateSet then stateSet else stateSet ++ [w])
        acc).Nodup := by
  intro l
  induction l with
  | nil => exact fun acc h => h
  | cons p rest ih =>
    intro acc hacc
    rw [List.foldl_cons]
    apply ih
    rcases hh : p.2.head? with _ | w
    · exact hacc
    · by_cases h0 : p.1 = 0
      · simp only [if_pos h0]; exact hacc
      · by_cases hv : w ∈ acc
        · simp only [if_neg h0, if_pos hv]; exact hacc
        · simp only [if_neg h0, if_neg hv]
          exact List.Nodup.append hacc (List.nodup_singleton w)
            (List.disjoint_singleton.mpr hv)

/-- C4 (amended): on convergence the engine appends one superposition built
from the deduplicated first-values of timeline positions `1..N-1` — position
0 (the seed entry) is excluded from the collection, but the seed *value*
itself is collected whenever it was re-assigned at some later position — and
the appended entry becomes the current state. -/
theorem create_superpositions_characterization (pv : PV α) :
    (createSuperpositions pv).timeline
      = pv.timeline ++ [[TVal.any (collectStates pv.timeline)]]
    ∧ (createSuperpositions pv).CurrentState
      = some (TVal.any (collectStates pv.timeline))
    ∧ (collectStates pv.timeline).Nodup
    ∧ (∀ v, v ∈ collectStates pv.timeline ↔
        ∃ j row, 1 ≤ j ∧ pv.timeline.get? j = some row ∧ row.head? = some v) := by
  refine ⟨rfl, ?_, ?_, ?_⟩
  · simp [createSuperpositions, PV.CurrentState, List.getLast?_concat]
  · exact collectStates_fold_nodup _ _ List.nodup_nil
  · intro v
    rw [collectStates, collectStates_fold_mem]
    simp only [List.not_mem_nil, false_or]
    constructor
    · rintro ⟨⟨j, row⟩, hmem, hne, hhead⟩
      refine ⟨j, row, by simpa using Nat.one_le_iff_ne_zero.mpr hne, ?_, hhead⟩
      rw [List.get?_eq_getElem?]
      exact List.mk_mem_enum_iff_getElem?.mp hmem
    · rintro ⟨j, row, hj, hget, hhead⟩
      refine ⟨(j, row), List.mk_mem_enum_iff_getElem?.mpr ?_, by omega, hhead⟩
      rw [← List.get?_eq_getElem?]
      exact hget

/-- Counterexample for C4 as stated: running with seed 0 and a callback that
keeps assigning 0, a length-1 cycle is detected on the timeline
`[[0],[0],[0]]` and the collected set handed to `quantum.Any` is `[0]` —
it contains the seed value stored at position 0, so the collapsed set does
not exclude the seed value, only the seed *position*. -/
theorem create_superpositions_seed_cex :
    ((RunProgram constProgram (NewPositronicVariable (TVal.base (0 : Int)))).map
        (fun r => (r.1.timeline, r.2.1)))
      = some ([[TVal.base 0], [TVal.base 0], [TVal.base 0],
               [TVal.any (collectStates
                  [[TVal.base 0], [TVal.base 0], [TVal.base 0]])]], 1)
    ∧ cellVal [[TVal.base (0 : Int)], [TVal.base 0], [TVal.base 0]] 0
      = some (TVal.base 0)
    ∧ TVal.base 0 ∈ collectStates [[TVal.base (0 : Int)], [TVal.base 0], [TVal.base 0]] := by
  exact ⟨by decide, by decide, by decide⟩

/-! ### C6: grouping and per-key deduplication of outputs -/

/-- The key-list component of the `buildOutputMap` fold, for an arbitrary
starting accumulator. -/
theorem buildOutputMap_keys_fold (entries : List (OutputEntry α)) :
    ∀ (ks : List String) (m : String → List (OutArg α)),
      (entries.foldl
        (fun (acc : List String × (String → List (OutArg α))) e =>
          (if e.format ∈ acc.1 then acc.1 else acc.1 ++ [e.format],
           fun k => if k = e.format then acc.2 k ++ e.args else acc.2 k))
        (ks, m)).1
      = entries.foldl
          (fun acc e => if e.format ∈ acc then acc else acc ++ [e.format]) ks := by
  induction entries with
  | nil => intro ks m; rfl
  | cons e rest ih =>
    intro ks m
    rw [List.foldl_cons, List.foldl_cons, ih]

/-- The contents component of the `buildOutputMap` fold, for an arbitrary
starting accumulator: each key collects the concatenation of the argument
lists of the entries carrying that key, in order. -/
theorem buildOutputMap_contents_fold (entries : List (OutputEntry α)) :
    ∀ (ks : List String) (m : String → List (OutArg α)) (k : String),
      (entries.foldl
        (fun (acc : List String × (String → List (OutArg α))) e =>
          (if e.format ∈ acc.1 then acc.1 else acc.1 ++ [e.format],
           fun k => if k = e.format then acc.2 k ++ e.args else acc.2 k))
        (ks, m)).2 k
      = m k ++ ((entries.filter (fun e => e.format = k)).map (fun e => e.args)).flatten := by
  induction entries with
  | nil => intro ks m k; simp
  | cons e rest ih =>
    intro ks m k
    rw [List.foldl_cons, ih]
    by_cases hk : e.format = k
    · rw [List.filter_cons_of_pos (by simpa using hk)]
      simp only [if_pos hk.symm, List.map_cons, List.flatten_cons, List.append_assoc]
    · rw [List.filter_cons_of_neg (by simpa using hk)]
      rw [if_neg (show ¬ k = e.format from fun h => hk h.symm)]

/-- `buildOutputMap` produces the insertion-order deduplicated key list. -/
theorem buildOutputMap_keys (entries : List (OutputEntry α)) :
    (buildOutputMap entries).1 = dedupKeep (entries.map (fun e => e.format)) := by
  rw [dedupKeep, List.foldl_map]
  exact buildOutputMap_keys_fold entries [] (fun _ => [])

/-- `buildOutputMap` groups the argument lists by key. -/
theorem buildOutputMap_contents (entries : List (OutputEntry α)) (k : String) :
    (buildOutputMap entries).2 k
      = ((entries.filter (fun e => e.format = k)).map (fun e => e.args)).flatten := by
  simpa using buildOutputMap_contents_fold entries [] (fun _ => []) k

/-- Insertion-order deduplication of a non-empty constant list yields the
singleton. -/
theorem dedupKeep_const {β : Type} [DecidableEq β] (c : β) :
    ∀ l : List β, l ≠ [] → (∀ x ∈ l, x = c) → dedupKeep l = [c] := by
  have haux : ∀ (l : List β) (acc : List β), (∀ x ∈ l, x = c) → c ∈ acc →
      l.foldl (fun acc x => if x ∈ acc then acc else acc ++ [x]) acc = acc := by
    intro l
    induction l with
    | nil => intro acc _ _; rfl
    | cons x rest ih =>
      intro acc hall hc
      rw [List.foldl_cons, hall x (List.mem_cons_self x rest), if_pos hc]
      exact ih acc (fun y hy => hall y (List.mem_cons_of_mem x hy)) hc
  intro l hne hall
  cases l with
  | nil => exact absurd rfl hne
  | cons x rest =>
    rw [dedupKeep, List.foldl_cons, hall x (List.mem_cons_self x rest),
      if_neg (List.not_mem_nil c)]
    exact haux rest ([] ++ [c]) (fun y hy => hall y (List.mem_cons_of_mem x hy))
      (by simp)

/-- C6: when at least `cycleLen` buckets exist, output materialization
produces, for each distinct format key of the last `cycleLen` buckets (in
first-appearance order), that key paired with the deduplicated argument
values of all entries sharing the key; in particular, when every entry of
those buckets is one and the same literal pair `(f, [a])`, the superposition
for `f` is built from the single-element set `[a]`. -/
theorem process_outputs_grouping (pv : PV α) (cycleLen : Nat)
    (h : cycleLen ≤ pv.outputLogs.length) :
    (processOutputs pv cycleLen
      = (dedupKeep ((lastCycleEntries pv cycleLen).map (fun e => e.format))).map
          (fun k => (k, dedupKeep
            ((((lastCycleEntries pv cycleLen).filter
                (fun e => e.format = k)).map (fun e => e.args)).flatten))))
    ∧ (∀ f a, lastCycleEntries pv cycleLen ≠ [] →
        (∀ e ∈ lastCycleEntries pv cycleLen, e = ⟨f, [a]⟩) →
        processOutputs pv cycleLen = [(f, [a])]) := by
  have hmain : processOutputs pv cycleLen
      = (dedupKeep ((lastCycleEntries pv cycleLen).map (fun e => e.format))).map
          (fun k => (k, dedupKeep
            ((((lastCycleEntries pv cycleLen).filter
                (fun e => e.format = k)).map (fun e => e.args)).flatten))) := by
    rw [processOutputs, if_neg (not_lt.mpr h), buildOutputMap_keys]
    exact List.map_congr_left fun k _ => by rw [buildOutputMap_contents]
  refine ⟨hmain, fun f a hne hall => ?_⟩
  have hfmt : dedupKeep ((lastCycleEntries pv cycleLen).map (fun e => e.format)) = [f] := by
    refine dedupKeep_const f _ (by simpa using hne) ?_
    intro x hx
    obtain ⟨e, he, rfl⟩ := List.mem_map.mp hx
    rw [hall e he]
  have hfil : (lastCycleEntries pv cycleLen).filter (fun e => e.format = f)
      = lastCycleEntries pv cycleLen := by
    refine List.filter_eq_self.mpr fun e he => ?_
    rw [hall e he]
    exact decide_eq_true rfl
  have hargs : dedupKeep ((((lastCycleEntries pv cycleLen).filter
      (fun e => e.format = f)).map (fun e => e.args)).flatten) = [a] := by
    rw [hfil]
    refine dedupKeep_const a _ ?_ ?_
    · cases hl : lastCycleEntries pv cycleLen with
      | nil => exact absurd hl hne
      | cons e rest =>
        have he : e = ⟨f, [a]⟩ := hall e (by rw [hl]; exact List.mem_cons_self e rest)
        rw [List.map_cons, List.flatten_cons, he]
        simp
    · intro x hx
      obtain ⟨l, hl, hxl⟩ := List.mem_flatten.mp hx
      obtain ⟨e, he, rfl⟩ := List.mem_map.mp hl
      rw [hall e he] at hxl
      simpa using hxl
  rw [hmain, hfmt, List.map_singleton, hargs]

/-- Witness for C6: two buckets each holding the same literal entry collapse
to one key with a single-element argument set. -/
theorem process_outputs_grouping_witness :
    processOutputs
      (⟨[[TVal.base (0 : Int)]], false,
        [[⟨"k%v", [OutArg.ofVal (TVal.base 1)]⟩], [⟨"k%v", [OutArg.ofVal (TVal.base 1)]⟩]],
        3⟩ : PV Int) 2
      = [("k%v", [OutArg.ofVal (TVal.base 1)])] := by
  exact (process_outputs_grouping
      (⟨[[TVal.base (0 : Int)]], false,
        [[⟨"k%v", [OutArg.ofVal (TVal.base 1)]⟩], [⟨"k%v", [OutArg.ofVal (TVal.base 1)]⟩]],
        3⟩ : PV Int) 2 (by decide)).2 "k%v" (OutArg.ofVal (TVal.base 1))
    (by decide) (by decide)

/-! ### The run loop under an assign-only callback -/

theorem Tl_length (s : α) (vfun : Nat → α) (k : Nat) : (Tl s vfun k).length = k + 1 := by
  simp [Tl]

theorem Tl_succ (s : α) (vfun : Nat → α) (k : Nat) :
    Tl s vfun (k + 1) = Tl s vfun k ++ [[TVal.base (vfun (k + 1))]] := by
  simp [Tl, List.range_succ]

theorem cellVal_Tl_zero (s : α) (vfun : Nat → α) (k : Nat) :
    cellVal (Tl s vfun k) 0 = some (TVal.base s) := rfl

theorem cellVal_Tl_pos (s : α) (vfun : Nat → α) (k j : Nat) (h1 : 1 ≤ j) (h2 : j ≤ k) :
    cellVal (Tl s vfun k) j = some (TVal.base (vfun j)) := by
  obtain ⟨m, rfl⟩ : ∃ m, j = m + 1 := ⟨j - 1, by omega⟩
  have hm : m < k := by omega
  simp [cellVal, Tl, List.get?_eq_getElem?, List.getElem?_map, List.getElem?_range hm]

/-- One step of the callback under the assign-only hypothesis extends the
`Tl` timeline by one row and preserves the convergence flag. -/
theorem assign_only_step (program : PV α → PV α) (s : α) (vfun : Nat → α)
    (hprog : ∀ q, program q = q.Assign (TVal.base (vfun q.timeline.length)))
    (pv : PV α) (i k : Nat) (hE : pv.timeline = Tl s vfun k) :
    (program { pv with iteration := i, outputLogs := pv.outputLogs ++ [[]] }).timeline
      = Tl s vfun (k + 1)
    ∧ (program { pv with iteration := i, outputLogs := pv.outputLogs ++ [[]] }).convergence
      = pv.convergence := by
  rw [hprog]
  constructor
  · show pv.timeline ++ [[TVal.base (vfun pv.timeline.length)]] = Tl s vfun (k + 1)
    rw [hE, Tl_length, Tl_succ]
  · rfl

/-- If the first successful backward check happens at the odd iteration
`i₀`, the run loop stops there: the final state has the convergence flag
set, its timeline is the `Tl` timeline of the detection moment with the
superposition entry appended, and the reported length is the one returned
by `checkConvergence` at that moment. -/
theorem runLoop_converges (program : PV α → PV α) (s : α) (vfun : Nat → α)
    (hprog : ∀ q, program q = q.Assign (TVal.base (vfun q.timeline.length))) :
    ∀ fuel i i₀ entropy pv,
      pv.timeline = Tl s vfun i →
      ((i % 2 = 0 ∧ entropy = 1) ∨ (i % 2 = 1 ∧ entropy = -1)) →
      i ≤ i₀ → i₀ < i + fuel → i₀ % 2 = 1 →
      (checkConvergence (Tl s vfun (i₀ + 1))).1 = true →
      (∀ i', i ≤ i' → i' < i₀ → i' % 2 = 1 →
        (checkConvergence (Tl s vfun (i' + 1))).1 = false) →
      ∃ pvf, runLoop program fuel i entropy pv
          = (pvf, (checkConvergence (Tl s vfun (i₀ + 1))).2)
        ∧ pvf.convergence = true
        ∧ pvf.timeline
          = Tl s vfun (i₀ + 1) ++ [[TVal.any (collectStates (Tl s vfun (i₀ + 1)))]] := by
  intro fuel
  induction fuel with
  | zero =>
    intro i i₀ entropy pv _ _ hle hlt _ _ _
    exact absurd hlt (by omega)
  | succ fuel ih =>
    intro i i₀ entropy pv hE hent hle hlt hodd htrue hfalse
    obtain ⟨hT, hC⟩ := assign_only_step program s vfun hprog pv i i hE
    rw [runLoop]
    rcases hent with ⟨hpar, rfl⟩ | ⟨hpar, rfl⟩
    · rw [if_neg (by norm_num : ¬ (1 : Int) < 0)]
      have hrec := ih (i + 1) i₀ (-1) _ hT (Or.inr ⟨by omega, rfl⟩)
        (by omega) (by omega) hodd htrue
        (fun i' h1 h2 h3 => hfalse i' (by omega) h2 h3)
      simpa using hrec
    · rw [if_pos (by norm_num : (-1 : Int) < 0)]
      rcases Nat.eq_or_lt_of_le hle with heq | hi_lt
      · cases heq
        rw [hT, if_pos htrue]
        exact ⟨_, rfl, rfl, rfl⟩
      · rw [hT, hfalse i (le_refl i) hi_lt hpar]
        simp only [Bool.false_eq_true, if_false]
        have hrec := ih (i + 1) i₀ (- -1) _ hT (Or.inl ⟨by omega, by norm_num⟩)
          (by omega) (by omega) hodd htrue
          (fun i' h1 h2 h3 => hfalse i' (by omega) h2 h3)
        exact hrec

/-- If every backward check in the remaining budget fails, the run loop
exhausts its fuel: the convergence flag stays clear, the timeline is the
plain `Tl` timeline after all assignments, and the reported length is 0. -/
theorem runLoop_exhausts (program : PV α → PV α) (s : α) (vfun : Nat → α)
    (hprog : ∀ q, program q = q.Assign (TVal.base (vfun q.timeline.length))) :
    ∀ fuel i entropy pv,
      pv.timeline = Tl s vfun i →
      pv.convergence = false →
      ((i % 2 = 0 ∧ entropy = 1) ∨ (i % 2 = 1 ∧ entropy = -1)) →
      (∀ i', i ≤ i' → i' < i + fuel → i' % 2 = 1 →
        (checkConvergence (Tl s vfun (i' + 1))).1 = false) →
      ∃ pvf, runLoop program fuel i entropy pv = (pvf, 0)
        ∧ pvf.convergence = false
        ∧ pvf.timeline = Tl s vfun (i + fuel) := by
  intro fuel
  induction fuel with
  | zero =>
    intro i entropy pv hE hC _ _
    exact ⟨pv, rfl, hC, hE⟩
  | succ fuel ih =>
    intro i entropy pv hE hC hent hfalse
    obtain ⟨hT, hC2⟩ := assign_only_step program s vfun hprog pv i i hE
    rw [runLoop]
    have hgoal : i + (fuel + 1) = (i + 1) + fuel := by omega
    rcases hent with ⟨hpar, rfl⟩ | ⟨hpar, rfl⟩
    · rw [if_neg (by norm_num : ¬ (1 : Int) < 0)]
      have hrec := ih (i + 1) (-1) _ hT (hC2.trans hC) (Or.inr ⟨by omega, rfl⟩)
        (fun i' h1 h2 h3 => hfalse i' (by omega) (by omega) h3)
      rw [hgoal]
      simpa using hrec
    · rw [if_pos (by norm_num : (-1 : Int) < 0)]
      rw [hT, hfalse i (le_refl i) (by omega) hpar]
      simp only [Bool.false_eq_true, if_false]
      have hrec := ih (i + 1) (- -1) _ hT (hC2.trans hC) (Or.inl ⟨by omega, by norm_num⟩)
        (fun i' h1 h2 h3 => hfalse i' (by omega) (by omega) h3)
      rw [hgoal]
      exact hrec

/-- Once the compared window lies inside the periodic regime
(`N₀ + 2·P ≤ k + 1` entries), the tail of the `Tl` timeline matches at
length `P`. -/
theorem tailMatch_of_periodic (s : α) (vfun : Nat → α) (P N₀ k : Nat)
    (hP : 1 ≤ P) (hN : 1 ≤ N₀)
    (hper : ∀ j, N₀ ≤ j → vfun (j + P) = vfun j)
    (hk : N₀ + 2 * P ≤ k + 1) :
    TailMatch (Tl s vfun k) P := by
  intro i hi
  rw [Tl_length, Nat.add_sub_cancel]
  rw [cellVal_Tl_pos s vfun k (k - i) (by omega) (by omega)]
  rw [cellVal_Tl_pos s vfun k (k - i - P) (by omega) (by omega)]
  have h := hper (k - i - P) (by omega)
  rw [show k - i - P + P = k - i from by omega] at h
  rw [h]

/-- If some candidate in the searched range matches, the detector reports
success. -/
theorem check_true_of_match (t : List (List (TVal α))) (L : Nat)
    (hL1 : 1 ≤ L) (hL10 : L ≤ 10) (hLn : 2 * L ≤ t.length)
    (hm : tailMatchB t L = true) : (checkConvergence t).1 = true := by
  cases hb : (checkConvergence t).1
  · exfalso
    have hr : checkConvergence t = (false, (checkConvergence t).2) := by
      rw [← hb]
    obtain ⟨-, hall⟩ := searchFrom_false_spec t 11 1 _ (by omega) hr
    rw [hall L hL1 hL10 hLn] at hm
    cases hm
  · rfl

/-- C1 (amended): for every seed and every assign-one-value-per-call
callback whose assigned sequence is eventually periodic with period
`P ≤ 10`, the periodic regime starting at assignment index `N₀` with
`N₀ + P ≤ 50` (so a full double period fits in the 100-iteration budget),
`RunProgram` terminates with the convergence flag true and a detected cycle
length `cl` with `1 ≤ cl ≤ 10` that is exactly what `checkConvergence`
returns on the timeline at the moment of detection — by the detector
contract the smallest tail-matching length there, which can be strictly
smaller than the true period `P`. -/
theorem run_program_eventually_periodic (program : PV α → PV α) (s : α)
    (vfun : Nat → α) (P N₀ : Nat)
    (hprog : ∀ q, program q = q.Assign (TVal.base (vfun q.timeline.length)))
    (hP1 : 1 ≤ P) (hP10 : P ≤ 10) (hN1 : 1 ≤ N₀) (hbudget : N₀ + P ≤ 50)
    (hper : ∀ j, N₀ ≤ j → vfun (j + P) = vfun j) :
    ∃ pvf cl out,
      RunProgram program (NewPositronicVariable (TVal.base s)) = some (pvf, cl, out)
      ∧ pvf.convergence = true
      ∧ 1 ≤ cl ∧ cl ≤ 10
      ∧ ∃ t, pvf.timeline = t ++ [[TVal.any (collectStates t)]]
          ∧ checkConvergence t = (true, cl) := by
  have hw : (2 * (N₀ + P) - 1) % 2 = 1
      ∧ (checkConvergence (Tl s vfun ((2 * (N₀ + P) - 1) + 1))).1 = true := by
    constructor
    · omega
    · apply check_true_of_match _ P hP1 hP10
      · rw [Tl_length]; omega
      · rw [tailMatchB_iff]
        exact tailMatch_of_periodic s vfun P N₀ _ hP1 hN1 hper (by omega)
  have hhit : ∃ i, i % 2 = 1 ∧ (checkConvergence (Tl s vfun (i + 1))).1 = true :=
    ⟨2 * (N₀ + P) - 1, hw⟩
  have hi₀ := Nat.find_spec hhit
  have hi₀le : Nat.find hhit ≤ 2 * (N₀ + P) - 1 := Nat.find_min' hhit hw
  have hmin : ∀ i', i' < Nat.find hhit → i' % 2 = 1 →
      (checkConvergence (Tl s vfun (i' + 1))).1 = false := by
    intro i' hlt hodd
    have h := Nat.find_min hhit hlt
    cases hb : (checkConvergence (Tl s vfun (i' + 1))).1
    · rfl
    · exact absurd ⟨hodd, hb⟩ h
  obtain ⟨pvf, hloop, hconv, htl⟩ := runLoop_converges program s vfun hprog
    100 0 (Nat.find hhit) 1
    (PV.Reinit (NewPositronicVariable (TVal.base s)) (TVal.base s))
    rfl (Or.inl ⟨rfl, rfl⟩) (Nat.zero_le _) (by omega) hi₀.1 hi₀.2
    (fun i' _ h2 h3 => hmin i' h2 h3)
  have hshape : checkConvergence (Tl s vfun (Nat.find hhit + 1))
      = (true, (checkConvergence (Tl s vfun (Nat.find hhit + 1))).2) := by
    exact Prod.ext_iff.mpr ⟨hi₀.2, rfl⟩
  obtain ⟨h1, h2, -, -, -⟩ := searchFrom_true_spec (Tl s vfun (Nat.find hhit + 1)) 11 1 _ hshape
  refine ⟨pvf, (checkConvergence (Tl s vfun (Nat.find hhit + 1))).2,
    processOutputs pvf (checkConvergence (Tl s vfun (Nat.find hhit + 1))).2,
    ?_, hconv, h1, h2, Tl s vfun (Nat.find hhit + 1), htl, hshape⟩
  show some ((runLoop program 100 0 1 _).1, (runLoop program 100 0 1 _).2,
      processOutputs (runLoop program 100 0 1 _).1 (runLoop program 100 0 1 _).2) = _
  rw [hloop]

/-- Counterexample for C1 as stated: with seed 5 and the assign-only
callback whose assigned sequence `0,1,0,0,1,0,…` is periodic with true
(minimal) period 3 ≤ 10, the run converges with detected cycle length 1,
not 3: on the timeline `[5,0,1,0,0]` the last two entries already agree, so
the smallest tail-matching length at the moment of detection is 1 even
though no period of the sequence is smaller than 3. -/
theorem run_program_true_period_cex :
    ((RunProgram periodThreeProgram (NewPositronicVariable (TVal.base (5 : Int)))).map
        (fun r => (r.1.convergence, r.2.1))) = some (true, 1)
    ∧ (∀ j, vseq (j + 3) = vseq j)
    ∧ vseq 1 ≠ vseq 2
    ∧ vseq 2 ≠ vseq 4
    ∧ (1 : Nat) ≠ 3 := by
  refine ⟨by decide, ?_, by decide, by decide, by decide⟩
  intro j
  show (if (j + 3) % 3 = 2 then (1 : Int) else 0) = _
  rw [Nat.add_mod_right]
  rfl

/-- Witness for C1 (amended): the constant callback assigning 0 from seed 0
(pure period 1, regime start 1) converges with flag true and a detected
length in `[1, 10]`. -/
theorem run_program_eventually_periodic_witness :
    ∃ pvf cl out,
      RunProgram (fun q => q.Assign (TVal.base ((fun _ => (0 : Int)) q.timeline.length)))
          (NewPositronicVariable (TVal.base (0 : Int)))
        = some (pvf, cl, out)
      ∧ pvf.convergence = true
      ∧ 1 ≤ cl ∧ cl ≤ 10
      ∧ ∃ t, pvf.timeline = t ++ [[TVal.any (collectStates t)]]
          ∧ checkConvergence t = (true, cl) :=
  run_program_eventually_periodic
    (fun q => q.Assign (TVal.base ((fun _ => (0 : Int)) q.timeline.length)))
    0 (fun _ => (0 : Int)) 1 1 (fun _ => rfl)
    (by decide) (by decide) (by decide) (by decide) (fun j _ => rfl)

/-! ### C5: iteration budget exhausted without convergence -/

/-- With `cycleLen = 0` (the Go zero value when no cycle was ever detected)
`processOutputs` emits nothing. -/
theorem process_outputs_zero (pv : PV α) : processOutputs pv 0 = [] := by
  rw [processOutputs, if_neg (by omega)]
  simp [lastCycleEntries, List.drop_length, buildOutputMap]

/-- C5: for an assign-only callback none of whose backward checks ever
matches, all 100 iterations run out: the run returns with cycle length 0,
the convergence flag still false, the timeline uncollapsed — its last entry
is the single concrete value `vfun 100` assigned by the callback, not a
superposition — and no output is emitted. -/
theorem run_program_exhausts (program : PV α → PV α) (s : α) (vfun : Nat → α)
    (hprog : ∀ q, program q = q.Assign (TVal.base (vfun q.timeline.length)))
    (hnc : ∀ i, i < 100 → i % 2 = 1 → (checkConvergence (Tl s vfun (i + 1))).1 = false) :
    ∃ pvf,
      RunProgram program (NewPositronicVariable (TVal.base s)) = some (pvf, 0, [])
      ∧ pvf.convergence = false
      ∧ pvf.timeline = Tl s vfun 100
      ∧ pvf.CurrentState = some (TVal.base (vfun 100)) := by
  obtain ⟨pvf, hloop, hconv, htl⟩ := runLoop_exhausts program s vfun hprog
    100 0 1 (PV.Reinit (NewPositronicVariable (TVal.base s)) (TVal.base s))
    rfl rfl (Or.inl ⟨rfl, rfl⟩)
    (fun i' _ h2 h3 => hnc i' (by omega) h3)
  refine ⟨pvf, ?_, hconv, htl, ?_⟩
  · show some ((runLoop program 100 0 1 _).1, (runLoop program 100 0 1 _).2,
        processOutputs (runLoop program 100 0 1 _).1 (runLoop program 100 0 1 _).2) = _
    rw [hloop, process_outputs_zero]
  · rw [PV.CurrentState, htl, show (100 : Nat) = 99 + 1 from rfl, Tl_succ,
      List.getLast?_concat]
    rfl

/-- The strictly increasing assigned sequence `1, 2, 3, …` from seed 0
never produces a matching tail, at any check. -/
theorem injective_sequence_never_matches :
    ∀ i : Nat, i % 2 = 1 →
      (checkConvergence (Tl (0 : Int) (fun j => (j : Int)) (i + 1))).1 = false := by
  intro i _
  cases hb : (checkConvergence (Tl (0 : Int) (fun j => (j : Int)) (i + 1))).1
  · rfl
  · exfalso
    have hr : checkConvergence (Tl (0 : Int) (fun j => (j : Int)) (i + 1))
        = (true, (checkConvergence (Tl (0 : Int) (fun j => (j : Int)) (i + 1))).2) :=
      Prod.ext_iff.mpr ⟨hb, rfl⟩
    obtain ⟨h1, -, h3, h4, -⟩ :=
      searchFrom_true_spec (Tl (0 : Int) (fun j => (j : Int)) (i + 1)) 11 1 _ hr
    rw [Tl_length] at h3
    have hm := (tailMatchB_iff _ _).mp h4 0 (by omega)
    rw [Tl_length] at hm
    have hcell : ∀ m : Nat, m ≤ i + 1 →
        cellVal (Tl (0 : Int) (fun j => (j : Int)) (i + 1)) m = some (TVal.base (m : Int)) := by
      intro m hmle
      rcases Nat.eq_zero_or_pos m with rfl | hpos
      · exact cellVal_Tl_zero 0 (fun j => (j : Int)) (i + 1)
      · exact cellVal_Tl_pos _ _ _ m hpos hmle
    set L := (checkConvergence (Tl (0 : Int) (fun j => (j : Int)) (i + 1))).2 with hL
    rw [show i + 1 + 1 - 1 - 0 = i + 1 from by omega] at hm
    rw [hcell (i + 1) (le_refl _), hcell (i + 1 - L) (by omega)] at hm
    have : ((i + 1 : Nat) : Int) = ((i + 1 - L : Nat) : Int) := by
      injection hm with hm'
      injection hm'
    have : (i + 1 : Nat) = i + 1 - L := Nat.cast_inj.mp this
    omega

/-- Witness for C5: seed 0 with the callback assigning the current timeline
length (so values `1, 2, 3, …`) exhausts the budget without convergence. -/
theorem run_program_exhausts_witness :
    ∃ pvf,
      RunProgram (fun q => q.Assign (TVal.base ((fun j => (j : Int)) q.timeline.length)))
          (NewPositronicVariable (TVal.base (0 : Int)))
        = some (pvf, 0, [])
      ∧ pvf.convergence = false
      ∧ pvf.timeline = Tl (0 : Int) (fun j => (j : Int)) 100
      ∧ pvf.CurrentState = some (TVal.base ((100 : Nat) : Int)) :=
  run_program_exhausts
    (fun q => q.Assign (TVal.base ((fun j => (j : Int)) q.timeline.length)))
    0 (fun j => (j : Int)) (fun _ => rfl)
    (fun i _ hodd => injective_sequence_never_matches i hodd)

/-! ### C3: the main.go scenario (seed -1, step (current+1) % 3) -/

/-- Counterexample for C3 as stated: running `main.go`'s step callback
(seed -1, assign `(current+1) % 3`) under the append-only engine, the
timeline entry at position 3 is `[2]`, not `[0]` (the timeline is
`[-1,0,1,2,0,1,2]`, not `[-1,0,1,0,1,…]`), the detected cycle length is 3,
not 2, and the converged superposition contains the value 2, which is
outside the claimed set `{0, 1}`. -/
theorem main_scenario_cex :
    ((RunProgram mainProgram (NewPositronicVariable (TVal.base (-1 : Int)))).map
        (fun r => r.2.1)) = some 3
    ∧ (3 : Nat) ≠ 2
    ∧ ((RunProgram mainProgram (NewPositronicVariable (TVal.base (-1 : Int)))).map
        (fun r => r.1.timeline.get? 3)) = some (some [TVal.base 2])
    ∧ some (some [TVal.base (2 : Int)]) ≠ some (some [TVal.base (0 : Int)])
    ∧ ((RunProgram mainProgram (NewPositronicVariable (TVal.base (-1 : Int)))).map
        (fun r => r.1.CurrentState))
      = some (some (TVal.any [TVal.base 0, TVal.base 1, TVal.base 2]))
    ∧ TVal.base (2 : Int) ∈ [TVal.base (0 : Int), TVal.base 1, TVal.base 2]
    ∧ TVal.base (2 : Int) ≠ TVal.base 0 ∧ TVal.base (2 : Int) ≠ TVal.base 1 := by
  exact ⟨by decide, by decide, by decide, by decide, by decide, by decide, by decide, by decide⟩

/-- C3 (amended): with seed -1 and step `(current+1) % 3` through
alternating forward/backward passes with append-only assignment, the
timeline before convergence is `[-1, 0, 1, 2, 0, 1, 2]`; a cycle of length
3 is detected once the last two triples repeat, the converged superposition
covers exactly the distinct non-seed values `{0, 1, 2}` (appended as the
new current state), and the emitted outputs match the comment documented in
`cmd/positronic/main.go` (`any(0, 1, 2)` for the value line). -/
theorem main_scenario_amended :
    (RunProgram mainProgram (NewPositronicVariable (TVal.base (-1 : Int)))).map
        (fun r => (r.1.timeline, r.2.1, r.1.convergence))
      = some ([[TVal.base (-1)], [TVal.base 0], [TVal.base 1], [TVal.base 2],
               [TVal.base 0], [TVal.base 1], [TVal.base 2],
               [TVal.any [TVal.base 0, TVal.base 1, TVal.base 2]]], 3, true)
    ∧ (RunProgram mainProgram (NewPositronicVariable (TVal.base (-1 : Int)))).map
        (fun r => r.2.2)
      = some [("The antival is %v\n", [OutArg.ofPV]),
              ("The value is %v\n",
               [OutArg.ofVal (TVal.base 0), OutArg.ofVal (TVal.base 1),
                OutArg.ofVal (TVal.base 2)])] := by
  exact ⟨by decide, by decide⟩
